import Mathlib

/-!
Verification of the consensus-critical numerical core of the Parallax
proof-of-work chain: the compact-bits target codec, the ASERTi3-2d
difficulty retargeting function, and the supply calculator.

Every definition below is a shallow embedding of the corresponding Go
function.  `math/big.Int` values that are provably nonnegative are
embedded as `ℕ`; values that may be negative (timestamps, targets as
received from callers) as `ℤ`.  Fixed-width machine arithmetic is made
explicit with `% 2 ^ 32` / `% 2 ^ 64` where the Go code uses `uint32` /
`uint64`.  A Go `panic` is embedded as `Option.none`.
-/

namespace Parallax

/-! ## Compact bits codec (src/consensus/xhash/asert_test.go) -/

/-- BCH maximum-target compact bits (`asertMaxBits = 0x1d00ffff`). -/
def asertMaxBits : ℕ := 0x1d00ffff

/-- Embedding of `bitsToTargetBCH` (asert_test.go lines 25-41): compact
nBits to big-integer target.  `bits` is a `uint32`; `big.Int` shifts on a
nonnegative value are `ℕ` shifts. -/
def bitsToTargetBCH (bits : ℕ) : ℕ :=
  let size := bits >>> 24
  let mant := bits &&& 0x007fffff
  if size ≤ 3 then mant >>> (8 * (3 - size))
  else mant <<< (8 * (size - 3))

/-- The clamp target `bitsToTargetBCH(asertMaxBits)` used by
`targetToBitsBCH`. -/
def maxTargetBCH : ℕ := bitsToTargetBCH asertMaxBits

/-- Embedding of `(*big.Int).BitLen`, by fuel.  512 bits of fuel are exact
for every argument below `2 ^ 512`; `targetToBitsBCH` only takes bit
lengths of targets already clamped to `maxTargetBCH < 2 ^ 224`. -/
def bitLenF : ℕ → ℕ → ℕ
  | 0, _ => 0
  | f + 1, n => if n = 0 then 0 else bitLenF f (n / 2) + 1

/-- Bit length of a natural number, as `big.Int.BitLen` computes it. -/
def bitLen (n : ℕ) : ℕ := bitLenF 512 n

/-- Embedding of `targetToBitsBCH` (asert_test.go lines 44-84): big-integer
target back to compact nBits.  The `target.Sign() <= 0` panic is `none`.
`uint32` casts wrap modulo `2 ^ 32`. -/
def targetToBitsBCH (target : ℤ) : Option ℕ :=
  if target ≤ 0 then none else
  let t0 := target.toNat
  let t := if maxTargetBCH < t0 then maxTargetBCH else t0
  let size := (bitLen t + 7) / 8
  let compact :=
    if size ≤ 3 then (t <<< (8 * (3 - size))) % 2 ^ 32
    else (t >>> (8 * (size - 3))) % 2 ^ 32
  let compact2 := if compact &&& 0x00800000 ≠ 0 then compact >>> 8 else compact
  let size2 := if compact &&& 0x00800000 ≠ 0 then size + 1 else size
  some ((compact2 &&& 0x007fffff) ||| ((size2 <<< 24) % 2 ^ 32))

/-! ### Bit-length facts -/

theorem bitLenF_zero (f : ℕ) : bitLenF f 0 = 0 := by
  cases f <;> simp [bitLenF]

theorem bitLenF_upper : ∀ f n, n < 2 ^ f → n < 2 ^ bitLenF f n := by
  intro f
  induction f with
  | zero => intro n h; simpa [bitLenF] using h
  | succ f ih =>
    intro n h
    by_cases hn : n = 0
    · simp [bitLenF, hn]
    · have hpow : (2 : ℕ) ^ (f + 1) = 2 * 2 ^ f := by ring
      have hdiv : n / 2 < 2 ^ f := by omega
      have := ih (n / 2) hdiv
      simp only [bitLenF, hn, if_false]
      have h2 : n < 2 * (n / 2) + 2 := by omega
      calc n < 2 * (n / 2) + 2 := h2
        _ ≤ 2 * 2 ^ bitLenF f (n / 2) := by omega
        _ = 2 ^ (bitLenF f (n / 2) + 1) := by ring

theorem bitLenF_lower : ∀ f n, n < 2 ^ f → 0 < n →
    2 ^ (bitLenF f n - 1) ≤ n := by
  intro f
  induction f with
  | zero => intro n h hn; omega
  | succ f ih =>
    intro n h hn
    have hn' : n ≠ 0 := by omega
    simp only [bitLenF, hn', if_false]
    by_cases hd : n / 2 = 0
    · rw [hd, bitLenF_zero]
      simpa using hn
    · have hpow : (2 : ℕ) ^ (f + 1) = 2 * 2 ^ f := by ring
      have hdiv : n / 2 < 2 ^ f := by omega
      have hlow := ih (n / 2) hdiv (by omega)
      have hup := bitLenF_upper f (n / 2) hdiv
      have hpos : 0 < bitLenF f (n / 2) := by
        by_contra hz
        have hzero : bitLenF f (n / 2) = 0 := by omega
        rw [hzero] at hup
        omega
      have hsplit : 2 ^ (bitLenF f (n / 2) + 1 - 1) = 2 * 2 ^ (bitLenF f (n / 2) - 1) := by
        rw [← pow_succ']
        congr 1
        omega
      rw [hsplit]
      omega

theorem bitLen_unique {n s : ℕ} (hs : 0 < s) (h1 : 2 ^ (s - 1) ≤ n)
    (h2 : n < 2 ^ s) (hbig : n < 2 ^ 512) : bitLen n = s := by
  have hn : 0 < n := lt_of_lt_of_le (Nat.pos_pow_of_pos _ (by norm_num)) h1
  have hu := bitLenF_upper 512 n hbig
  have hl := bitLenF_lower 512 n hbig hn
  unfold bitLen
  set L := bitLenF 512 n with hL
  have hLpos : 0 < L := by
    by_contra hz
    have : L = 0 := by omega
    rw [this] at hu
    omega
  by_contra hne
  rcases Nat.lt_or_ge L s with hlt | hge
  · have : L ≤ s - 1 := by omega
    have := Nat.pow_le_pow_right (show 1 ≤ 2 by norm_num) this
    omega
  · have hgt : s < L := by omega
    have : s ≤ L - 1 := by omega
    have := Nat.pow_le_pow_right (show 1 ≤ 2 by norm_num) this
    omega

theorem and_mask23 (x : ℕ) : x &&& 0x007fffff = x % 2 ^ 23 := by
  have h : (0x007fffff : ℕ) = 2 ^ 23 - 1 := by norm_num
  rw [h, Nat.and_pow_two_sub_one_eq_mod]

theorem and_bit23_eq_zero_iff (x : ℕ) :
    x &&& 0x00800000 = 0 ↔ x / 2 ^ 23 % 2 = 0 := by
  have h : (0x00800000 : ℕ) = 2 ^ 23 := by norm_num
  rw [h, Nat.and_two_pow, Nat.testBit_to_div_mod]
  by_cases hx : x / 2 ^ 23 % 2 = 1
  · simp [hx]
  · have h0 : x / 2 ^ 23 % 2 = 0 := by omega
    simp [h0]

theorem maxTargetBCH_eq : maxTargetBCH = 65535 * 2 ^ 208 := by
  have h1 : asertMaxBits >>> 24 = 29 := by decide
  have h2 : asertMaxBits &&& 0x007fffff = 65535 := by decide
  rw [maxTargetBCH, bitsToTargetBCH]
  simp only [h1, h2]
  norm_num [Nat.shiftLeft_eq]

theorem maxTargetBCH_lt : maxTargetBCH < 2 ^ 224 := by
  rw [maxTargetBCH_eq]
  calc 65535 * 2 ^ 208 < 2 ^ 16 * 2 ^ 208 := by
        exact (Nat.mul_lt_mul_right (Nat.two_pow_pos 208)).mpr (by norm_num)
    _ = 2 ^ 224 := by ring

theorem bitsToTargetBCH_eq_of_ge3 {b : ℕ} (h : 3 ≤ b >>> 24) :
    bitsToTargetBCH b = (b &&& 0x007fffff) * 2 ^ (8 * (b >>> 24 - 3)) := by
  unfold bitsToTargetBCH
  rcases eq_or_lt_of_le h with heq | hlt
  · rw [← heq]
    simp
  · have hn : ¬ (b >>> 24 ≤ 3) := by omega
    simp [hn, Nat.shiftLeft_eq]

theorem targetToBitsBCH_pos {t : ℕ} (ht : 0 < t) :
    targetToBitsBCH (t : ℤ) = some (
      let tc := if maxTargetBCH < t then maxTargetBCH else t
      let size := (bitLen tc + 7) / 8
      let compact :=
        if size ≤ 3 then (tc <<< (8 * (3 - size))) % 2 ^ 32
        else (tc >>> (8 * (size - 3))) % 2 ^ 32
      let compact2 := if compact &&& 0x00800000 ≠ 0 then compact >>> 8 else compact
      let size2 := if compact &&& 0x00800000 ≠ 0 then size + 1 else size
      ((compact2 &&& 0x007fffff) ||| ((size2 <<< 24) % 2 ^ 32))) := by
  have hguard : ¬ ((t : ℤ) ≤ 0) := by
    push_neg
    exact_mod_cast ht
  unfold targetToBitsBCH
  simp [hguard]

theorem and_bit23_ne_zero_iff (x : ℕ) :
    x &&& 0x00800000 ≠ 0 ↔ x / 2 ^ 23 % 2 = 1 := by
  rw [Ne, and_bit23_eq_zero_iff]
  omega

theorem encode_tail {mant size : ℕ} (hm : mant < 2 ^ 23) (hs : size < 2 ^ 8) :
    (mant &&& 0x007fffff) ||| ((size <<< 24) % 2 ^ 32) = 2 ^ 24 * size + mant := by
  rw [and_mask23, Nat.mod_eq_of_lt hm, Nat.shiftLeft_eq]
  have h1 : size * 2 ^ 24 < 2 ^ 32 := by omega
  rw [Nat.mod_eq_of_lt h1, Nat.lor_comm, mul_comm size (2 ^ 24)]
  exact (Nat.mul_add_lt_is_or (by omega) size).symm

theorem targetToBitsBCH_spec {t size m : ℕ} (ht : 0 < t)
    (hclamp : ¬ maxTargetBCH < t)
    (hsize : (bitLen t + 7) / 8 = size)
    (hcompact : (if size ≤ 3 then (t <<< (8 * (3 - size))) % 2 ^ 32
                 else (t >>> (8 * (size - 3))) % 2 ^ 32) = m) :
    targetToBitsBCH (t : ℤ) = some
      (if m &&& 0x00800000 ≠ 0 then
         ((m >>> 8) &&& 0x007fffff) ||| (((size + 1) <<< 24) % 2 ^ 32)
       else (m &&& 0x007fffff) ||| ((size <<< 24) % 2 ^ 32)) := by
  rw [targetToBitsBCH_pos ht]
  simp only [if_neg hclamp, hsize, hcompact]
  by_cases hm : m &&& 0x00800000 ≠ 0 <;> simp [hm]

/-- C1 (amended): the compact round-trip `targetToBitsBCH ∘ bitsToTargetBCH`
is the identity on canonical compact values: normal form (mantissa high bit
clear), `size ≥ 3`, mantissa at least `2 ^ 15`, and decoded target at most
`maxTargetBCH`.  (The unamended claim, quantifying over all normal-form
values with `size > 0`, is refuted by `compact_roundtrip_counterexample`.) -/
theorem compact_roundtrip_canonical (b : ℕ) (hb : b < 2 ^ 32)
    (hnorm : b &&& 0x00800000 = 0)
    (hsize3 : 3 ≤ b >>> 24)
    (hmant : 2 ^ 15 ≤ b &&& 0x007fffff)
    (hmax : bitsToTargetBCH b ≤ maxTargetBCH) :
    targetToBitsBCH (bitsToTargetBCH b : ℤ) = some b := by
  have hdec0 : bitsToTargetBCH b = (b &&& 0x007fffff) * 2 ^ (8 * (b >>> 24 - 3)) :=
    bitsToTargetBCH_eq_of_ge3 hsize3
  rw [Nat.shiftRight_eq_div_pow] at hsize3
  rw [and_mask23] at hmant
  rw [Nat.shiftRight_eq_div_pow, and_mask23] at hdec0
  have hbit23 : b / 2 ^ 23 % 2 = 0 := (and_bit23_eq_zero_iff b).mp hnorm
  set size := b / 2 ^ 24 with hsizedef
  set mant := b % 2 ^ 23 with hmantdef
  have hmant_lt : mant < 2 ^ 23 := Nat.mod_lt _ (by norm_num)
  have hmant_pos : 0 < mant := lt_of_lt_of_le (by norm_num) hmant
  have hsize_lt : size < 2 ^ 8 := by omega
  have hb_decomp : b = 2 ^ 24 * size + mant := by omega
  set k := size - 3 with hk
  set t := mant * 2 ^ (8 * k) with ht
  have hdec : bitsToTargetBCH b = t := hdec0
  rw [hdec] at hmax ⊢
  have ht_pos : 0 < t := by positivity
  have hclamp : ¬ (maxTargetBCH < t) := by omega
  have hm512 : mant < 2 ^ 512 := lt_trans hmant_lt (by norm_num)
  have hsm_up : mant < 2 ^ bitLen mant := bitLenF_upper 512 mant hm512
  have hsm_low : 2 ^ (bitLen mant - 1) ≤ mant := bitLenF_lower 512 mant hm512 hmant_pos
  set sm := bitLen mant with hsm
  have hsm16 : 16 ≤ sm := by
    by_contra hcon
    have h2 : (2 : ℕ) ^ sm ≤ 2 ^ 15 := Nat.pow_le_pow_right (by norm_num) (by omega)
    omega
  have hsm23 : sm ≤ 23 := by
    by_contra hcon
    have h2 : (2 : ℕ) ^ 23 ≤ 2 ^ (sm - 1) := Nat.pow_le_pow_right (by norm_num) (by omega)
    omega
  have ht_up : t < 2 ^ (sm + 8 * k) := by
    rw [pow_add]
    exact (Nat.mul_lt_mul_right (Nat.two_pow_pos _)).mpr hsm_up
  have ht_low : 2 ^ (sm + 8 * k - 1) ≤ t := by
    have he : sm + 8 * k - 1 = (sm - 1) + 8 * k := by omega
    rw [he, pow_add]
    exact Nat.mul_le_mul_right _ hsm_low
  have ht512 : t < 2 ^ 512 := lt_of_le_of_lt hmax (lt_trans maxTargetBCH_lt (by norm_num))
  have hbl : bitLen t = sm + 8 * k := bitLen_unique (by omega) ht_low ht_up ht512
  have hmant_nobump : mant &&& 0x00800000 = 0 := (and_bit23_eq_zero_iff mant).mpr (by omega)
  rcases Nat.lt_or_ge sm 17 with hsmA | hsmB
  · -- sm = 16 : the re-encoded mantissa is mant * 2 ^ 8 and the top bit bump fires
    have hsm_eq : sm = 16 := by omega
    have hmant16 : mant < 2 ^ 16 := by
      rw [hsm_eq] at hsm_up
      exact hsm_up
    have hsize' : (bitLen t + 7) / 8 = k + 2 := by rw [hbl]; omega
    have hm8_lt : mant * 2 ^ 8 < 2 ^ 24 := by omega
    have hcompact : (if k + 2 ≤ 3 then (t <<< (8 * (3 - (k + 2)))) % 2 ^ 32
        else (t >>> (8 * (k + 2 - 3))) % 2 ^ 32) = mant * 2 ^ 8 := by
      rcases Nat.lt_or_ge k 2 with hk2 | hk2
      · have harg : t <<< (8 * (3 - (k + 2))) = mant * 2 ^ 8 := by
          rw [Nat.shiftLeft_eq, ht, mul_assoc, ← pow_add]
          have hexp : 8 * k + 8 * (3 - (k + 2)) = 8 := by omega
          rw [hexp]
        rw [if_pos (by omega : k + 2 ≤ 3), harg, Nat.mod_eq_of_lt (by omega)]
      · have harg : t >>> (8 * (k + 2 - 3)) = mant * 2 ^ 8 := by
          rw [Nat.shiftRight_eq_div_pow, ht]
          have hsplit : 8 * k = 8 + 8 * (k + 2 - 3) := by omega
          rw [hsplit, pow_add, ← mul_assoc, Nat.mul_div_cancel _ (Nat.two_pow_pos _)]
        rw [if_neg (by omega), harg, Nat.mod_eq_of_lt (by omega)]
    have hbump : (mant * 2 ^ 8) &&& 0x00800000 ≠ 0 := by
      rw [and_bit23_ne_zero_iff]
      have h23 : (2 : ℕ) ^ 23 = 2 ^ 15 * 2 ^ 8 := by norm_num
      rw [h23, Nat.mul_div_mul_right _ _ (Nat.two_pow_pos 8)]
      omega
    rw [targetToBitsBCH_spec ht_pos hclamp (by rw [hsize']) hcompact, if_pos hbump]
    have hshift : (mant * 2 ^ 8) >>> 8 = mant := by
      rw [Nat.shiftRight_eq_div_pow, Nat.mul_div_cancel _ (Nat.two_pow_pos _)]
    rw [hshift, encode_tail hmant_lt (by omega)]
    congr 1
    omega
  · -- 17 ≤ sm ≤ 23 : the re-encoded mantissa is mant itself, no bump
    have hsize' : (bitLen t + 7) / 8 = k + 3 := by rw [hbl]; omega
    have hcompact : (if k + 3 ≤ 3 then (t <<< (8 * (3 - (k + 3)))) % 2 ^ 32
        else (t >>> (8 * (k + 3 - 3))) % 2 ^ 32) = mant := by
      rcases Nat.eq_zero_or_pos k with hk0 | hk1
      · have h1 : t = mant := by
          rw [ht, hk0]
          norm_num
        have h0 : 8 * (3 - (k + 3)) = 0 := by omega
        rw [if_pos (by omega : k + 3 ≤ 3), h0, Nat.shiftLeft_zero, h1,
          Nat.mod_eq_of_lt (by omega)]
      · have hif : ¬ (k + 3 ≤ 3) := by omega
        rw [if_neg hif, Nat.shiftRight_eq_div_pow, ht]
        have he : k + 3 - 3 = k := by omega
        rw [he, Nat.mul_div_cancel _ (Nat.two_pow_pos _), Nat.mod_eq_of_lt (by omega)]
    rw [targetToBitsBCH_spec ht_pos hclamp (by rw [hsize']) hcompact, if_neg (by
      rw [hmant_nobump]
      simp)]
    rw [encode_tail hmant_lt (by omega)]
    congr 1
    omega

/-- C1 counterexample: `b = 0x03000001` is in normal form (mantissa high bit
clear, `size = 3 > 0`) yet decodes to target `1`, which re-encodes to
`0x01010000`, not `b`. -/
theorem compact_roundtrip_counterexample :
    0x03000001 &&& 0x00800000 = 0 ∧ 0 < 0x03000001 >>> 24 ∧
    targetToBitsBCH (bitsToTargetBCH 0x03000001 : ℤ) ≠ some 0x03000001 := by
  refine ⟨by decide, by decide, ?_⟩
  decide

/-- C1 witness: the canonical compact value `0x1d00ffff` round-trips. -/
theorem compact_roundtrip_canonical_witness :
    targetToBitsBCH (bitsToTargetBCH 0x1d00ffff : ℤ) = some 0x1d00ffff :=
  compact_roundtrip_canonical 0x1d00ffff (by decide) (by decide) (by decide)
    (by decide) (le_of_eq (by rw [maxTargetBCH]; rfl))

/-- C10: the normal-form compact value `0x00000001` (size 0, mantissa 1)
decodes to target `0`, and `targetToBitsBCH` panics (`none`) on it — as it
does on every non-positive target. -/
theorem bitsToTarget_zero_encode_panics :
    bitsToTargetBCH 0x00000001 = 0 ∧
    targetToBitsBCH (bitsToTargetBCH 0x00000001 : ℤ) = none ∧
    (∀ t : ℤ, t ≤ 0 → targetToBitsBCH t = none) := by
  refine ⟨by decide, by decide, ?_⟩
  intro t hle
  unfold targetToBitsBCH
  rw [if_pos hle]

/-- C10 witness: the general non-positive-input clause applied at `-5`. -/
theorem bitsToTarget_zero_encode_panics_witness :
    targetToBitsBCH (-5) = none :=
  bitsToTarget_zero_encode_panics.2.2 (-5) (by decide)

/-! ## ASERT retarget (src/consensus/xhash/asert.go) -/

/-- Ideal block spacing in seconds (`asertIdealBlockTime`). -/
def asertIdealBlockTime : ℤ := 600

/-- ASERT half-life in seconds (`asertHalflife`, 2 days). -/
def asertHalflife : ℤ := 172800

/-- Fixed-point radix `2 ^ 16` (`asertRadix`). -/
def asertRadix : ℤ := 65536

/-- Cubic approximation coefficient A (`asertPolyA`). -/
def asertPolyA : ℕ := 195766423245049

/-- Cubic approximation coefficient B (`asertPolyB`). -/
def asertPolyB : ℕ := 971821376

/-- Cubic approximation coefficient C (`asertPolyC`). -/
def asertPolyC : ℕ := 5127

/-- Wrap to `uint64`: Go's unsigned 64-bit arithmetic is modulo `2 ^ 64`. -/
def wrap64 (n : ℕ) : ℕ := n % 2 ^ 64

/-- Embedding of the 16.16 fixed-point factor computation of
`ASERTNextTarget` (asert.go lines 62-73): the wrapped `uint64` cubic
`poly = A*ux + B*ux² + C*ux³ + 2^47` followed by `(poly >> 48) + 2^16`.
Each Go `uint64` multiplication and addition wraps modulo `2 ^ 64`. -/
def asertFactor (ux : ℕ) : ℕ :=
  let x2 := wrap64 (ux * ux)
  let x3 := wrap64 (x2 * ux)
  let poly := wrap64 (wrap64 (wrap64 (wrap64 (asertPolyA * ux) +
    wrap64 (asertPolyB * x2)) + wrap64 (asertPolyC * x3)) + 2 ^ 47)
  wrap64 ((poly >>> 48) + 65536)

/-- The exact (unwrapped) value of the ASERT cubic polynomial. -/
def asertPolyExact (ux : ℕ) : ℕ :=
  asertPolyA * ux + asertPolyB * ux ^ 2 + asertPolyC * ux ^ 3 + 2 ^ 47

/-- Embedding of the exponent computation of `ASERTNextTarget` (asert.go
lines 50-58).  Go's `/` on `int64` truncates toward zero: `Int.tdiv`. -/
def asertExponent (anchorHeight anchorParentTime evalHeight evalTime : ℤ) : ℤ :=
  let timeDelta := evalTime - anchorParentTime
  let heightDelta := evalHeight - anchorHeight
  let numBlocks := heightDelta + 1
  Int.tdiv ((timeDelta - asertIdealBlockTime * numBlocks) * asertRadix) asertHalflife

/-- Embedding of the unclamped target computed by `ASERTNextTarget`
(asert.go lines 50-88): the value of `next` after the final `Rsh(next, 16)`
and before the clamp.  `anchorTarget` is the (positive) `big.Int` anchor
target as a natural number.  Go's `>> 16` on the signed `int64` exponent is
an arithmetic shift, i.e. floor division: `Int.fdiv`.  `uint64(exponent)`
is the two's-complement reinterpretation, i.e. reduction modulo `2 ^ 64`
(`Int.emod`, nonnegative). -/
def asertUnclamped (anchorHeight anchorParentTime : ℤ) (anchorTarget : ℕ)
    (evalHeight evalTime : ℤ) : ℕ :=
  let exponent := asertExponent anchorHeight anchorParentTime evalHeight evalTime
  let numShifts := Int.fdiv exponent 65536
  let exponent2 := exponent - numShifts * asertRadix
  let ux : ℕ := (exponent2 % (2 ^ 64 : ℤ)).toNat
  let factor := asertFactor ux
  let next := anchorTarget * factor
  let next2 :=
    if numShifts < 0 then next >>> (-numShifts).toNat
    else if 0 < numShifts then next <<< numShifts.toNat
    else next
  next2 >>> 16

/-- Embedding of `ASERTNextTarget` (asert.go lines 32-98).  The three
precondition panics are `none`; otherwise the unclamped value is clamped to
`[1, maxTarget]`. -/
def ASERTNextTarget (anchorHeight anchorParentTime : ℤ) (anchorTarget : ℤ)
    (evalHeight evalTime maxTarget : ℤ) : Option ℤ :=
  if anchorHeight ≤ 0 then none
  else if anchorTarget ≤ 0 then none
  else if maxTarget ≤ 0 then none
  else
    let next : ℤ :=
      (asertUnclamped anchorHeight anchorParentTime anchorTarget.toNat
        evalHeight evalTime : ℕ)
    if next ≤ 0 then some 1
    else if maxTarget < next then some maxTarget
    else some next

/-! ### The cubic factor: no wrap, monotone, bounded -/

theorem asertPolyExact_mono {ux uy : ℕ} (h : ux ≤ uy) :
    asertPolyExact ux ≤ asertPolyExact uy := by
  unfold asertPolyExact
  have h2 : ux ^ 2 ≤ uy ^ 2 := Nat.pow_le_pow_left h 2
  have h3 : ux ^ 3 ≤ uy ^ 3 := Nat.pow_le_pow_left h 3
  have := Nat.mul_le_mul_left asertPolyA h
  have := Nat.mul_le_mul_left asertPolyB h2
  have := Nat.mul_le_mul_left asertPolyC h3
  omega

theorem asertPolyExact_top : asertPolyExact 65535 = 18446563080438344768 := by
  decide

theorem asertPolyExact_lt {ux : ℕ} (h : ux < 65536) :
    asertPolyExact ux < 2 ^ 64 := by
  have := asertPolyExact_mono (show ux ≤ 65535 by omega)
  rw [asertPolyExact_top] at this
  omega

theorem wrap64_chain {a b c d : ℕ} (h : a + b + c + d < 2 ^ 64) :
    wrap64 (wrap64 (wrap64 (wrap64 a + wrap64 b) + wrap64 c) + d) = a + b + c + d := by
  unfold wrap64
  omega

theorem asertFactor_eq_exact {ux : ℕ} (h : ux < 65536) :
    asertFactor ux = asertPolyExact ux / 2 ^ 48 + 65536 := by
  have hx2 : ux * ux < 2 ^ 64 := by nlinarith
  have hx3 : ux * ux * ux < 2 ^ 64 := by nlinarith
  have htot := asertPolyExact_lt h
  have e2 : ux ^ 2 = ux * ux := by ring
  have e3 : ux ^ 3 = ux * ux * ux := by ring
  unfold asertPolyExact at htot ⊢
  rw [e2, e3] at htot ⊢
  have w2 : wrap64 (ux * ux) = ux * ux := Nat.mod_eq_of_lt hx2
  unfold asertFactor
  simp only [w2]
  have w3 : wrap64 (ux * ux * ux) = ux * ux * ux := Nat.mod_eq_of_lt hx3
  simp only [w3]
  rw [wrap64_chain htot]
  have hq : (asertPolyA * ux + asertPolyB * (ux * ux) + asertPolyC * (ux * ux * ux) +
      2 ^ 47) / 2 ^ 48 < 2 ^ 16 := by
    apply Nat.div_lt_of_lt_mul
    calc asertPolyA * ux + asertPolyB * (ux * ux) + asertPolyC * (ux * ux * ux) + 2 ^ 47
        < 2 ^ 64 := htot
      _ = 2 ^ 48 * 2 ^ 16 := by norm_num
  rw [Nat.shiftRight_eq_div_pow]
  exact Nat.mod_eq_of_lt (by omega)

/-- C4: for every `ux < 2 ^ 16` the exact cubic value is below `2 ^ 64`, so
the wrapped `uint64` computation equals the exact one, and the resulting
16.16 fixed-point factor lies in `[2 ^ 16, 2 ^ 17)`. -/
theorem asert_poly_no_wrap (ux : ℕ) (h : ux < 2 ^ 16) :
    asertPolyExact ux < 2 ^ 64 ∧
    asertFactor ux = asertPolyExact ux / 2 ^ 48 + 2 ^ 16 ∧
    2 ^ 16 ≤ asertFactor ux ∧ asertFactor ux < 2 ^ 17 := by
  have h' : ux < 65536 := by omega
  have hlt := asertPolyExact_lt h'
  have heq := asertFactor_eq_exact h'
  refine ⟨hlt, by rw [heq]; norm_num, by rw [heq]; omega, ?_⟩
  rw [heq]
  have hq : asertPolyExact ux / 2 ^ 48 < 2 ^ 16 := by
    apply Nat.div_lt_of_lt_mul
    calc asertPolyExact ux < 2 ^ 64 := hlt
      _ = 2 ^ 48 * 2 ^ 16 := by norm_num
  omega

/-- C4 witness: the no-wrap bounds at the extreme point `ux = 65535`. -/
theorem asert_poly_no_wrap_witness :
    asertPolyExact 65535 < 2 ^ 64 ∧
    asertFactor 65535 = asertPolyExact 65535 / 2 ^ 48 + 2 ^ 16 ∧
    2 ^ 16 ≤ asertFactor 65535 ∧ asertFactor 65535 < 2 ^ 17 :=
  asert_poly_no_wrap 65535 (by decide)

/-! ### Panic and clamp behaviour -/

/-- C6: `ASERTNextTarget` aborts (panics) precisely when `anchorHeight ≤ 0`
or `anchorTarget ≤ 0` or `maxTarget ≤ 0`; on every other input — including
negative and mutually inconsistent timestamps and `evalHeight <
anchorHeight` — it returns normally. -/
theorem asert_panics_iff (aH aPT aT eH eT maxT : ℤ) :
    ASERTNextTarget aH aPT aT eH eT maxT = none ↔
      aH ≤ 0 ∨ aT ≤ 0 ∨ maxT ≤ 0 := by
  unfold ASERTNextTarget
  by_cases h1 : aH ≤ 0
  · simp [h1]
  · by_cases h2 : aT ≤ 0
    · simp [h1, h2]
    · by_cases h3 : maxT ≤ 0
      · simp [h1, h2, h3]
      · simp only [if_neg h1, if_neg h2, if_neg h3]
        constructor
        · intro hcon
          split at hcon
          · exact absurd hcon (by simp)
          · split at hcon <;> exact absurd hcon (by simp)
        · intro hcon
          omega

/-- C6 witness: a violated precondition panics, a satisfied one does not. -/
theorem asert_panics_iff_witness :
    ASERTNextTarget 0 0 1 1 600 1 = none ∧
    ASERTNextTarget 1 0 1 1 600 1 ≠ none := by
  constructor
  · exact (asert_panics_iff 0 0 1 1 600 1).mpr (Or.inl (by norm_num))
  · intro h
    have := (asert_panics_iff 1 0 1 1 600 1).mp h
    omega

/-- C5: under the input contract the returned target lies in
`[1, maxTarget]`; an unclamped value `≤ 0` yields `1` and an unclamped
value above `maxTarget` yields `maxTarget`. -/
theorem asert_result_in_range (aH aPT aT eH eT maxT : ℤ)
    (h1 : 0 < aH) (h2 : 0 < aT) (h3 : 0 < maxT) :
    ∃ r, ASERTNextTarget aH aPT aT eH eT maxT = some r ∧ 1 ≤ r ∧ r ≤ maxT ∧
      ((asertUnclamped aH aPT aT.toNat eH eT : ℤ) ≤ 0 → r = 1) ∧
      (maxT < (asertUnclamped aH aPT aT.toNat eH eT : ℤ) → r = maxT) := by
  unfold ASERTNextTarget
  rw [if_neg (by omega), if_neg (by omega), if_neg (by omega)]
  simp only []
  set u : ℤ := ((asertUnclamped aH aPT aT.toNat eH eT : ℕ) : ℤ) with hu
  have hu0 : (0 : ℤ) ≤ u := Int.natCast_nonneg _
  by_cases hc1 : u ≤ 0
  · rw [if_pos hc1]
    exact ⟨1, rfl, le_refl 1, by omega, fun _ => rfl, fun hlt => by omega⟩
  · rw [if_neg hc1]
    by_cases hc2 : maxT < u
    · rw [if_pos hc2]
      exact ⟨maxT, rfl, by omega, le_refl _, fun hle => by omega, fun _ => rfl⟩
    · rw [if_neg hc2]
      exact ⟨u, rfl, by omega, by omega, fun hle => by omega, fun hlt => by omega⟩

/-- C5 witness: a concrete in-contract call returns a value in range. -/
theorem asert_result_in_range_witness :
    ∃ r, ASERTNextTarget 1 0 3 1 600 100 = some r ∧ 1 ≤ r ∧ r ≤ 100 := by
  obtain ⟨r, ha, hb, hc, -, -⟩ :=
    asert_result_in_range 1 0 3 1 600 100 (by decide) (by decide) (by decide)
  exact ⟨r, ha, hb, hc⟩

/-! ### Shift and exponent machinery for the half-life and monotonicity
claims -/

/-- The shift tail of `ASERTNextTarget` (asert.go lines 77-88): apply
`numShifts` as a left or right shift and remove the 16.16 scaling. -/
def applyShifts (x : ℕ) (s : ℤ) : ℕ :=
  (if s < 0 then x >>> (-s).toNat else if 0 < s then x <<< s.toNat else x) >>> 16

/-- The unclamped target as a function of the raw exponent. -/
def unclampedOfExp (anchorTarget : ℕ) (e : ℤ) : ℕ :=
  applyShifts
    (anchorTarget *
      asertFactor ((e - (Int.fdiv e 65536) * asertRadix) % (2 ^ 64 : ℤ)).toNat)
    (Int.fdiv e 65536)

theorem asertUnclamped_eq (aH aPT : ℤ) (T : ℕ) (eH eT : ℤ) :
    asertUnclamped aH aPT T eH eT = unclampedOfExp T (asertExponent aH aPT eH eT) :=
  rfl

theorem unclampedOfExp_normal (T : ℕ) (e : ℤ) :
    unclampedOfExp T e =
      applyShifts (T * asertFactor (e % 65536).toNat) (e / 65536) := by
  unfold unclampedOfExp asertRadix
  rw [Int.fdiv_eq_ediv e (by norm_num)]
  have hfrac : e - e / 65536 * 65536 = e % 65536 := by
    rw [Int.emod_def]
    ring
  rw [hfrac]
  have h0 : 0 ≤ e % 65536 := Int.emod_nonneg e (by norm_num)
  have h1 : e % 65536 < 65536 := Int.emod_lt_of_pos e (by norm_num)
  rw [Int.emod_eq_of_lt h0 (by omega)]

theorem applyShifts_eq (x : ℕ) (s : ℤ) :
    applyShifts x s =
      if 16 ≤ s then x * 2 ^ (s - 16).toNat else x / 2 ^ (16 - s).toNat := by
  unfold applyShifts
  by_cases h16 : 16 ≤ s
  · rw [if_pos h16, if_neg (by omega : ¬ s < 0), if_pos (by omega : (0:ℤ) < s),
      Nat.shiftLeft_eq, Nat.shiftRight_eq_div_pow]
    have hsp : s.toNat = (s - 16).toNat + 16 := by omega
    rw [hsp, pow_add, ← mul_assoc, Nat.mul_div_cancel _ (Nat.two_pow_pos 16)]
  · rw [if_neg h16]
    by_cases hneg : s < 0
    · rw [if_pos hneg, Nat.shiftRight_eq_div_pow, Nat.shiftRight_eq_div_pow,
        Nat.div_div_eq_div_mul, ← pow_add]
      have hsp : (-s).toNat + 16 = (16 - s).toNat := by omega
      rw [hsp]
    · by_cases hpos : (0:ℤ) < s
      · rw [if_neg hneg, if_pos hpos, Nat.shiftLeft_eq, Nat.shiftRight_eq_div_pow]
        have hsp : (16:ℕ) = (16 - s).toNat + s.toNat := by omega
        rw [hsp, pow_add]
        exact Nat.mul_div_mul_right x (2 ^ (16 - s).toNat) (Nat.two_pow_pos _)
      · have hz : s = 0 := by omega
        subst hz
        rw [if_neg hneg, if_neg hpos, Nat.shiftRight_eq_div_pow]
        have h0 : ((16:ℤ) - 0).toNat = 16 := by omega
        rw [h0]

theorem applyShifts_mono {x y : ℕ} (s : ℤ) (h : x ≤ y) :
    applyShifts x s ≤ applyShifts y s := by
  rw [applyShifts_eq, applyShifts_eq]
  by_cases h16 : 16 ≤ s
  · simp only [if_pos h16]
    exact Nat.mul_le_mul_right _ h
  · simp only [if_neg h16]
    exact Nat.div_le_div_right h

theorem applyShifts_two_mul (x : ℕ) (s : ℤ) :
    applyShifts (2 * x) s = applyShifts x (s + 1) := by
  rw [applyShifts_eq, applyShifts_eq]
  by_cases h16 : 16 ≤ s
  · rw [if_pos h16, if_pos (by omega : (16:ℤ) ≤ s + 1)]
    have hsp : (s + 1 - 16).toNat = (s - 16).toNat + 1 := by omega
    rw [hsp, pow_succ]
    ring
  · by_cases h15 : s = 15
    · rw [if_neg h16, if_pos (by omega : (16:ℤ) ≤ s + 1), h15]
      norm_num
    · rw [if_neg h16, if_neg (by omega : ¬ (16:ℤ) ≤ s + 1)]
      have hsp : (16 - s).toNat = (16 - (s + 1)).toNat + 1 := by omega
      rw [hsp, pow_succ, mul_comm (2 ^ (16 - (s + 1)).toNat) 2]
      exact Nat.mul_div_mul_left x (2 ^ (16 - (s + 1)).toNat) (by norm_num)

theorem applyShifts_succ_bracket (x : ℕ) (s : ℤ) :
    2 * applyShifts x s ≤ applyShifts x (s + 1) ∧
    applyShifts x (s + 1) ≤ 2 * applyShifts x s + 1 := by
  rw [← applyShifts_two_mul, applyShifts_eq, applyShifts_eq]
  by_cases h16 : 16 ≤ s
  · simp only [if_pos h16]
    have he : 2 * x * 2 ^ (s - 16).toNat = 2 * (x * 2 ^ (s - 16).toNat) := by ring
    omega
  · simp only [if_neg h16]
    have hk : 1 ≤ (16 - s).toNat := by omega
    have hsp : (2:ℕ) ^ (16 - s).toNat = 2 * 2 ^ ((16 - s).toNat - 1) := by
      rw [← pow_succ']
      congr 1
      omega
    rw [hsp]
    have h1 : 2 * x / (2 * 2 ^ ((16 - s).toNat - 1)) = x / 2 ^ ((16 - s).toNat - 1) :=
      Nat.mul_div_mul_left x (2 ^ ((16 - s).toNat - 1)) (by norm_num)
    have h2 : x / (2 * 2 ^ ((16 - s).toNat - 1)) = x / 2 ^ ((16 - s).toNat - 1) / 2 := by
      rw [Nat.div_div_eq_div_mul, mul_comm]
    rw [h1, h2]
    omega

theorem asertFactor_mono {ux uy : ℕ} (hy : uy < 65536) (h : ux ≤ uy) :
    asertFactor ux ≤ asertFactor uy := by
  rw [asertFactor_eq_exact (by omega), asertFactor_eq_exact hy]
  have := Nat.div_le_div_right (c := 2 ^ 48) (asertPolyExact_mono h)
  omega

theorem unclampedOfExp_step (T : ℕ) (e : ℤ) :
    unclampedOfExp T e ≤ unclampedOfExp T (e + 1) := by
  rw [unclampedOfExp_normal, unclampedOfExp_normal]
  have h0 : 0 ≤ e % 65536 := Int.emod_nonneg e (by norm_num)
  have h1 : e % 65536 < 65536 := Int.emod_lt_of_pos e (by norm_num)
  by_cases hb : e % 65536 = 65535
  · have hs' : (e + 1) / 65536 = e / 65536 + 1 := by omega
    have hf' : (e + 1) % 65536 = 0 := by omega
    rw [hs', hf', hb, ← applyShifts_two_mul]
    apply applyShifts_mono
    have hv : asertFactor ((65535 : ℤ).toNat) = 131071 := by decide
    have hv0 : asertFactor ((0 : ℤ).toNat) = 65536 := by decide
    rw [hv, hv0]
    have he : 2 * (T * 65536) = T * 131072 := by ring
    rw [he]
    exact Nat.mul_le_mul_left T (by norm_num)
  · have hs' : (e + 1) / 65536 = e / 65536 := by omega
    have hf' : (e + 1) % 65536 = e % 65536 + 1 := by omega
    rw [hs', hf']
    apply applyShifts_mono
    apply Nat.mul_le_mul_left
    exact asertFactor_mono (by omega) (by omega)

theorem unclampedOfExp_mono (T : ℕ) {e1 e2 : ℤ} (h : e1 ≤ e2) :
    unclampedOfExp T e1 ≤ unclampedOfExp T e2 := by
  exact @Int.le_induction (fun x => unclampedOfExp T e1 ≤ unclampedOfExp T x) e1
    (le_refl _) (fun n hn ih => le_trans ih (unclampedOfExp_step T n)) e2 h

theorem tdiv_le_tdiv_right {a b d : ℤ} (hd : 0 < d) (h : a ≤ b) :
    a.tdiv d ≤ b.tdiv d := by
  rcases le_or_lt 0 a with ha | ha
  · rw [Int.tdiv_eq_ediv ha (by omega), Int.tdiv_eq_ediv (by omega) (by omega)]
    exact Int.ediv_le_ediv hd h
  · rcases le_or_lt 0 b with hb | hb
    · have h1 : a.tdiv d ≤ 0 := by
        have hn : (-a).tdiv d = -(a.tdiv d) := Int.neg_tdiv a d
        have hp : 0 ≤ (-a).tdiv d := Int.tdiv_nonneg (by omega) (by omega)
        omega
      have h2 : 0 ≤ b.tdiv d := Int.tdiv_nonneg hb (by omega)
      omega
    · have e1 : (-a).tdiv d = -(a.tdiv d) := Int.neg_tdiv a d
      have e2 : (-b).tdiv d = -(b.tdiv d) := Int.neg_tdiv b d
      have hmono : (-b).tdiv d ≤ (-a).tdiv d := by
        rw [Int.tdiv_eq_ediv (by omega) (by omega), Int.tdiv_eq_ediv (by omega) (by omega)]
        exact Int.ediv_le_ediv hd (by omega)
      omega

/-- C2 counterexample: with anchor height 1, anchor parent time 0, anchor
target 1 and eval height 1 (all preconditions satisfied), moving the eval
time from `-172200` up by one half-life gives unclamped target `1`, not
twice the original unclamped target `0`: truncation in the right shifts
breaks exact doubling. -/
theorem asert_halflife_counterexample :
    asertUnclamped 1 0 1 1 (-172200) = 0 ∧
    asertUnclamped 1 0 1 1 ((-172200) + asertHalflife) = 1 ∧
    asertUnclamped 1 0 1 1 ((-172200) + asertHalflife) ≠
      2 * asertUnclamped 1 0 1 1 (-172200) := by
  refine ⟨by decide, by decide, ?_⟩
  decide

/-- C2 (amended): holding `height_delta` fixed and increasing `evalTime` by
`HALFLIFE = 172800` multiplies the unclamped target by two up to the one
unit lost to shift truncation: the new value `n'` satisfies
`2n ≤ n' ≤ 2n + 1`, provided the exponent numerator
`timeDelta - 600 * numBlocks` is nonnegative (so that the truncating
division does not cross zero).  Exact doubling, as originally claimed, fails
(`asert_halflife_counterexample`). -/
theorem asert_halflife_doubles (aH aPT : ℤ) (T : ℕ) (eH eT : ℤ)
    (hnn : 0 ≤ (eT - aPT) - asertIdealBlockTime * ((eH - aH) + 1)) :
    2 * asertUnclamped aH aPT T eH eT ≤
      asertUnclamped aH aPT T eH (eT + asertHalflife) ∧
    asertUnclamped aH aPT T eH (eT + asertHalflife) ≤
      2 * asertUnclamped aH aPT T eH eT + 1 := by
  unfold asertIdealBlockTime at hnn
  set a := (eT - aPT) - 600 * ((eH - aH) + 1) with ha
  have hnum : (0:ℤ) ≤ a * 65536 := mul_nonneg hnn (by norm_num)
  have he1 : asertExponent aH aPT eH eT = a * 65536 / 172800 := by
    unfold asertExponent asertIdealBlockTime asertRadix asertHalflife
    show Int.tdiv ((eT - aPT - 600 * (eH - aH + 1)) * 65536) 172800 =
      a * 65536 / 172800
    rw [← ha]
    exact Int.tdiv_eq_ediv hnum (by norm_num)
  have he2 : asertExponent aH aPT eH (eT + asertHalflife) =
      a * 65536 / 172800 + 65536 := by
    unfold asertExponent asertIdealBlockTime asertRadix asertHalflife
    show Int.tdiv ((eT + 172800 - aPT - 600 * (eH - aH + 1)) * 65536) 172800 =
      a * 65536 / 172800 + 65536
    have harg : (eT + 172800 - aPT - 600 * (eH - aH + 1)) * 65536 =
        a * 65536 + 65536 * 172800 := by
      rw [ha]
      ring
    rw [harg, Int.tdiv_eq_ediv (by omega) (by norm_num),
      Int.add_mul_ediv_right _ _ (by norm_num : (172800:ℤ) ≠ 0)]
  rw [asertUnclamped_eq, asertUnclamped_eq, he1, he2]
  set e := a * 65536 / 172800 with he
  rw [unclampedOfExp_normal, unclampedOfExp_normal]
  have hs' : (e + 65536) / 65536 = e / 65536 + 1 := by omega
  have hf' : (e + 65536) % 65536 = e % 65536 := by omega
  rw [hs', hf']
  exact applyShifts_succ_bracket (T * asertFactor (e % 65536).toNat) (e / 65536)

/-- C2 witness: anchor target 5, eval time 600, one half-life later the
unclamped target is bracketed by doubling (here exactly doubled). -/
theorem asert_halflife_doubles_witness :
    (0 ≤ ((600:ℤ) - 0) - asertIdealBlockTime * ((1 - 1) + 1)) ∧
    (2 * asertUnclamped 1 0 5 1 600 ≤ asertUnclamped 1 0 5 1 (600 + asertHalflife) ∧
     asertUnclamped 1 0 5 1 (600 + asertHalflife) ≤ 2 * asertUnclamped 1 0 5 1 600 + 1) :=
  ⟨by decide, asert_halflife_doubles 1 0 5 1 600 (by decide)⟩

/-- C3: `ASERTNextTarget` is monotone in `evalTime`: with all other inputs
equal and preconditions satisfied (both calls return a value), the target
for the later eval time is at least the target for the earlier one, and
both are at most `maxTarget`. -/
theorem asert_monotone_evalTime (aH aPT aT eH t1 t2 maxT r1 r2 : ℤ)
    (ht : t1 ≤ t2)
    (h1 : ASERTNextTarget aH aPT aT eH t1 maxT = some r1)
    (h2 : ASERTNextTarget aH aPT aT eH t2 maxT = some r2) :
    r1 ≤ r2 ∧ r1 ≤ maxT ∧ r2 ≤ maxT := by
  unfold ASERTNextTarget at h1 h2
  by_cases g1 : aH ≤ 0
  · simp [g1] at h1
  by_cases g2 : aT ≤ 0
  · simp [g1, g2] at h1
  by_cases g3 : maxT ≤ 0
  · simp [g1, g2, g3] at h1
  simp only [if_neg g1, if_neg g2, if_neg g3] at h1 h2
  have hmono : asertUnclamped aH aPT aT.toNat eH t1 ≤
      asertUnclamped aH aPT aT.toNat eH t2 := by
    rw [asertUnclamped_eq, asertUnclamped_eq]
    apply unclampedOfExp_mono
    unfold asertExponent asertIdealBlockTime asertRadix asertHalflife
    apply tdiv_le_tdiv_right (by norm_num)
    have hnum : t1 - aPT - 600 * (eH - aH + 1) ≤ t2 - aPT - 600 * (eH - aH + 1) := by
      omega
    omega
  have hu12 : ((asertUnclamped aH aPT aT.toNat eH t1 : ℕ) : ℤ) ≤
      ((asertUnclamped aH aPT aT.toNat eH t2 : ℕ) : ℤ) := by exact_mod_cast hmono
  set u1 : ℤ := ((asertUnclamped aH aPT aT.toNat eH t1 : ℕ) : ℤ) with hu1
  set u2 : ℤ := ((asertUnclamped aH aPT aT.toNat eH t2 : ℕ) : ℤ) with hu2
  have hu1nn : (0:ℤ) ≤ u1 := Int.natCast_nonneg _
  have hu2nn : (0:ℤ) ≤ u2 := Int.natCast_nonneg _
  change (if u1 ≤ 0 then some 1 else if maxT < u1 then some maxT else some u1)
    = some r1 at h1
  change (if u2 ≤ 0 then some 1 else if maxT < u2 then some maxT else some u2)
    = some r2 at h2
  have hd1 : (u1 ≤ 0 ∧ r1 = 1) ∨ (¬ u1 ≤ 0 ∧ maxT < u1 ∧ r1 = maxT) ∨
      (¬ u1 ≤ 0 ∧ ¬ maxT < u1 ∧ r1 = u1) := by
    by_cases c1 : u1 ≤ 0
    · rw [if_pos c1] at h1
      exact Or.inl ⟨c1, (Option.some.inj h1).symm⟩
    · rw [if_neg c1] at h1
      by_cases c2 : maxT < u1
      · rw [if_pos c2] at h1
        exact Or.inr (Or.inl ⟨c1, c2, (Option.some.inj h1).symm⟩)
      · rw [if_neg c2] at h1
        exact Or.inr (Or.inr ⟨c1, c2, (Option.some.inj h1).symm⟩)
  have hd2 : (u2 ≤ 0 ∧ r2 = 1) ∨ (¬ u2 ≤ 0 ∧ maxT < u2 ∧ r2 = maxT) ∨
      (¬ u2 ≤ 0 ∧ ¬ maxT < u2 ∧ r2 = u2) := by
    by_cases c1 : u2 ≤ 0
    · rw [if_pos c1] at h2
      exact Or.inl ⟨c1, (Option.some.inj h2).symm⟩
    · rw [if_neg c1] at h2
      by_cases c2 : maxT < u2
      · rw [if_pos c2] at h2
        exact Or.inr (Or.inl ⟨c1, c2, (Option.some.inj h2).symm⟩)
      · rw [if_neg c2] at h2
        exact Or.inr (Or.inr ⟨c1, c2, (Option.some.inj h2).symm⟩)
  omega

/-- C3 witness: a small eval time yields target 1, a much later one yields
the clamp value 100, in order. -/
theorem asert_monotone_evalTime_witness :
    ASERTNextTarget 1 0 1 1 600 100 = some 1 ∧
    ASERTNextTarget 1 0 1 1 3456600 100 = some 100 ∧
    (1:ℤ) ≤ 100 := by
  refine ⟨by decide, by decide, ?_⟩
  exact (asert_monotone_evalTime 1 0 1 1 600 3456600 100 1 100 (by decide)
    (by decide) (by decide)).1

/-! ## Supply calculator (src/unnamed/part_000, `GetTotalSupply` and
`GetCirculatingSupply`)

The two RPC methods return `emissions.String()`, the decimal rendering of a
nonnegative `big.Int`; comparisons of those decimal strings as integers are
exactly comparisons of the `ℕ` values computed here.  The chain reader is
embedded as an `Option ℕ` tip height (`none` = nil current header). -/

/-- Blocks per halving era (`halvingInterval`). -/
def halvingInterval : ℕ := 210000

/-- Confirmations before a coinbase is spendable (`coinbaseMaturity`). -/
def coinbaseMaturity : ℕ := 100

/-- Embedding of `GetTotalSupply` (part_000 lines 118-159) at tip height
`n`, parameterized by the externally supplied `calcBlockReward`. -/
def getTotalSupplyAt (reward : ℕ → ℕ) (n : ℕ) : ℕ :=
  (∑ era ∈ Finset.range (n / halvingInterval),
      halvingInterval * reward (era * halvingInterval)) +
  (if 0 < n % halvingInterval then
      (n % halvingInterval) *
        reward (if n / halvingInterval * halvingInterval = 0 then 1
                else n / halvingInterval * halvingInterval)
    else 0)

/-- Embedding of `GetTotalSupply` including the nil-header case. -/
def GetTotalSupply (reward : ℕ → ℕ) (header : Option ℕ) : ℕ :=
  match header with
  | none => 0
  | some n => getTotalSupplyAt reward n

/-- Embedding of `GetCirculatingSupply` (part_000 lines 161-219) at tip
height `height`: only rewards of blocks `1..height - coinbaseMaturity`
count, and every era-0 sample (full-era and remainder) avoids block 0. -/
def getCirculatingSupplyAt (reward : ℕ → ℕ) (height : ℕ) : ℕ :=
  if height ≤ coinbaseMaturity then 0
  else
    (∑ era ∈ Finset.range ((height - coinbaseMaturity) / halvingInterval),
        halvingInterval *
          reward (if era * halvingInterval = 0 then 1 else era * halvingInterval)) +
    (if 0 < (height - coinbaseMaturity) % halvingInterval then
        ((height - coinbaseMaturity) % halvingInterval) *
          reward (if (height - coinbaseMaturity) / halvingInterval * halvingInterval = 0
                  then 1
                  else (height - coinbaseMaturity) / halvingInterval * halvingInterval)
      else 0)

/-- Embedding of `GetCirculatingSupply` including the nil-header case. -/
def GetCirculatingSupply (reward : ℕ → ℕ) (header : Option ℕ) : ℕ :=
  match header with
  | none => 0
  | some n => getCirculatingSupplyAt reward n

/-- Modelled from the spec: `calcBlockReward` itself is not under `src/`
(only its callers are); §4.4 specifies it as an externally provided
`reward(block_height) → bigint` — a nonnegative coin amount — "that is
constant within each halving era".  We therefore treat it as an arbitrary
`ℕ`-valued function that is constant on each era of `halvingInterval`
blocks. -/
def EraConstantReward (reward : ℕ → ℕ) : Prop :=
  ∀ b₁ b₂ : ℕ, b₁ / halvingInterval = b₂ / halvingInterval → reward b₁ = reward b₂

theorem getTotalSupplyAt_step (reward : ℕ → ℕ) (hera : EraConstantReward reward)
    (n : ℕ) : getTotalSupplyAt reward n ≤ getTotalSupplyAt reward (n + 1) := by
  unfold getTotalSupplyAt halvingInterval
  by_cases hb : (n + 1) % 210000 = 0
  · have hq : (n + 1) / 210000 = n / 210000 + 1 := by omega
    have hr : n % 210000 = 209999 := by omega
    rw [hq, hb, hr, Finset.sum_range_succ]
    rw [if_pos (by norm_num : (0:ℕ) < 209999), if_neg (by omega : ¬ (0:ℕ) < 0)]
    rw [add_zero]
    apply Nat.add_le_add_left
    by_cases hq0 : n / 210000 * 210000 = 0
    · rw [if_pos hq0]
      have h0 : n / 210000 * 210000 = 0 := hq0
      rw [h0]
      have hr01 : reward 1 = reward 0 := hera 1 0 (by decide)
      rw [hr01]
      exact Nat.mul_le_mul_right _ (by norm_num)
    · rw [if_neg hq0]
      exact Nat.mul_le_mul_right _ (by norm_num)
  · have hq : (n + 1) / 210000 = n / 210000 := by omega
    have hr : (n + 1) % 210000 = n % 210000 + 1 := by omega
    rw [hq, hr]
    apply Nat.add_le_add_left
    rw [if_pos (by omega : 0 < n % 210000 + 1)]
    by_cases hr0 : 0 < n % 210000
    · rw [if_pos hr0]
      exact Nat.mul_le_mul_right _ (by omega)
    · rw [if_neg hr0]
      exact Nat.zero_le _

theorem getTotalSupplyAt_mono (reward : ℕ → ℕ) (hera : EraConstantReward reward)
    {h1 h2 : ℕ} (h : h1 ≤ h2) :
    getTotalSupplyAt reward h1 ≤ getTotalSupplyAt reward h2 := by
  induction h2, h using Nat.le_induction with
  | base => exact le_refl _
  | succ n hn ih => exact le_trans ih (getTotalSupplyAt_step reward hera n)

theorem circ_eq_total_sub (reward : ℕ → ℕ) (hera : EraConstantReward reward)
    (n : ℕ) :
    getCirculatingSupplyAt reward n =
      if n ≤ coinbaseMaturity then 0
      else getTotalSupplyAt reward (n - coinbaseMaturity) := by
  unfold getCirculatingSupplyAt getTotalSupplyAt
  by_cases h : n ≤ coinbaseMaturity
  · rw [if_pos h, if_pos h]
  · rw [if_neg h, if_neg h]
    congr 1
    apply Finset.sum_congr rfl
    intro era _
    by_cases h0 : era * halvingInterval = 0
    · rw [if_pos h0, h0, hera 1 0 (by decide)]
    · rw [if_neg h0]

/-- C7: total and circulating supply are monotone non-decreasing in the tip
height, for the externally supplied era-constant block reward schedule. -/
theorem supply_monotone (reward : ℕ → ℕ) (hera : EraConstantReward reward)
    (h1 h2 : ℕ) (hh : h1 ≤ h2) :
    GetTotalSupply reward (some h1) ≤ GetTotalSupply reward (some h2) ∧
    GetCirculatingSupply reward (some h1) ≤ GetCirculatingSupply reward (some h2) := by
  constructor
  · exact getTotalSupplyAt_mono reward hera hh
  · show getCirculatingSupplyAt reward h1 ≤ getCirculatingSupplyAt reward h2
    rw [circ_eq_total_sub reward hera, circ_eq_total_sub reward hera]
    by_cases ha : h1 ≤ coinbaseMaturity
    · rw [if_pos ha]
      exact Nat.zero_le _
    · rw [if_neg ha, if_neg (by omega : ¬ h2 ≤ coinbaseMaturity)]
      exact getTotalSupplyAt_mono reward hera (by omega)

/-- C7 witness: constant reward 50 per block, heights 99 and 210001. -/
theorem supply_monotone_witness :
    EraConstantReward (fun _ => 50) ∧
    (GetTotalSupply (fun _ => 50) (some 99) ≤ GetTotalSupply (fun _ => 50) (some 210001) ∧
     GetCirculatingSupply (fun _ => 50) (some 99) ≤
       GetCirculatingSupply (fun _ => 50) (some 210001)) :=
  ⟨fun _ _ _ => rfl, supply_monotone (fun _ => 50) (fun _ _ _ => rfl) 99 210001 (by decide)⟩

/-- C8: at every tip height the circulating supply is at most the total
supply, for the era-constant block reward schedule. -/
theorem circulating_le_total (reward : ℕ → ℕ) (hera : EraConstantReward reward)
    (h : ℕ) :
    GetCirculatingSupply reward (some h) ≤ GetTotalSupply reward (some h) := by
  show getCirculatingSupplyAt reward h ≤ getTotalSupplyAt reward h
  rw [circ_eq_total_sub reward hera]
  by_cases hle : h ≤ coinbaseMaturity
  · rw [if_pos hle]
    exact Nat.zero_le _
  · rw [if_neg hle]
    exact getTotalSupplyAt_mono reward hera (by omega)

/-- C8 witness: constant reward 50 per block at height 210001. -/
theorem circulating_le_total_witness :
    EraConstantReward (fun _ => 50) ∧
    GetCirculatingSupply (fun _ => 50) (some 210001) ≤
      GetTotalSupply (fun _ => 50) (some 210001) :=
  ⟨fun _ _ _ => rfl, circulating_le_total (fun _ => 50) (fun _ _ _ => rfl) 210001⟩

/-- Everything `getTotalSupplyAt` adds beyond era 0's full-era term. -/
def totalSupplyRest (reward : ℕ → ℕ) (n : ℕ) : ℕ :=
  (∑ era ∈ Finset.Ico 1 (n / halvingInterval),
      halvingInterval * reward (era * halvingInterval)) +
  (if 0 < n % halvingInterval then
      (n % halvingInterval) *
        reward (if n / halvingInterval * halvingInterval = 0 then 1
                else n / halvingInterval * halvingInterval)
    else 0)

/-- Everything `getCirculatingSupplyAt` adds beyond era 0's full-era term. -/
def circSupplyRest (reward : ℕ → ℕ) (height : ℕ) : ℕ :=
  (∑ era ∈ Finset.Ico 1 ((height - coinbaseMaturity) / halvingInterval),
      halvingInterval * reward (era * halvingInterval)) +
  (if 0 < (height - coinbaseMaturity) % halvingInterval then
      ((height - coinbaseMaturity) % halvingInterval) *
        reward (if (height - coinbaseMaturity) / halvingInterval * halvingInterval = 0
                then 1
                else (height - coinbaseMaturity) / halvingInterval * halvingInterval)
    else 0)

/-- C9: once at least one full era has elapsed, `GetTotalSupply` samples
era 0 at block 0 (contributing `210000 * reward 0`) while
`GetCirculatingSupply` samples era 0 at block 1 (contributing
`210000 * reward 1`): the "`if sample == 0` use 1" substitution is applied
to full eras only in the circulating computation.  This holds for every
reward function. -/
theorem era_zero_sampling (reward : ℕ → ℕ) (n m : ℕ)
    (hn : 210000 ≤ n) (hm : 210100 ≤ m) :
    GetTotalSupply reward (some n) = 210000 * reward 0 + totalSupplyRest reward n ∧
    GetCirculatingSupply reward (some m) =
      210000 * reward 1 + circSupplyRest reward m := by
  constructor
  · show getTotalSupplyAt reward n = _
    unfold getTotalSupplyAt totalSupplyRest halvingInterval
    have hq : 0 < n / 210000 := by omega
    rw [Finset.sum_range_eq_add_Ico _ hq, Nat.zero_mul, add_assoc]
  · show getCirculatingSupplyAt reward m = _
    unfold getCirculatingSupplyAt circSupplyRest halvingInterval coinbaseMaturity
    rw [if_neg (by omega : ¬ m ≤ 100)]
    have hq : 0 < (m - 100) / 210000 := by omega
    rw [Finset.sum_range_eq_add_Ico _ hq]
    rw [if_pos (by norm_num : (0:ℕ) * 210000 = 0), add_assoc]
    congr 2
    apply Finset.sum_congr rfl
    intro era hera'
    have h1 : 1 ≤ era := (Finset.mem_Ico.mp hera').1
    rw [if_neg (by omega : ¬ era * 210000 = 0)]

/-- C9 witness: the sampling split at the first heights with one full era,
for a deliberately non-era-constant reward function. -/
theorem era_zero_sampling_witness :
    GetTotalSupply (fun b => b + 7) (some 210000) =
      210000 * ((fun b : ℕ => b + 7) 0) + totalSupplyRest (fun b => b + 7) 210000 ∧
    GetCirculatingSupply (fun b => b + 7) (some 210100) =
      210000 * ((fun b : ℕ => b + 7) 1) + circSupplyRest (fun b => b + 7) 210100 :=
  era_zero_sampling (fun b => b + 7) 210000 210100 (by decide) (by decide)

end Parallax
